import Mathlib

/-!
# Verification of core components of the millet static-semantics checker

This file gives a shallow embedding, in Lean 4, of the parts of the millet
source relevant to the frozen claims:

* `crates/core/src/intern.rs` — the string interner (`StrStoreMut`,
  `StrStore`, `StrRef`);
* `crates/core/src/statics/ck/sig_match.rs` — signature matching (`ck`);
* `crates/cli/src/diagnostic.rs` — the type pretty-printer (`show_ty_impl`,
  `show_row`, `show_lab`).

Rust `HashMap`/`BTreeMap` values are embedded as association lists
(`List (κ × ν)`) with `lookup` finding the most recently inserted binding;
`usize` becomes `Nat`; fallible Rust functions returning `Result` become
`Except`.  Modules of the repository that the shown files call but whose
source is not part of the excerpt (`enrich.rs`, `util.rs`, `ty_rzn.rs`,
the `types.rs` definitions of `Env`/`Sig`/`State`) are modelled from the
specification; each such definition carries a doc comment saying so.
-/

namespace Millet

/-- Association-list lookup: the value of the first pair whose key equals `k`
(models `HashMap::get` / `BTreeMap::get` on our list embedding of maps). -/
def assocLookup {α β : Type} [DecidableEq α] (l : List (α × β)) (k : α) : Option β :=
  match l with
  | [] => none
  | (a, b) :: rest => if a = k then some b else assocLookup rest k

/-- `contains_key` on the association-list embedding of maps. -/
def containsKey {α β : Type} [DecidableEq α] (l : List (α × β)) (k : α) : Bool :=
  (assocLookup l k).isSome

/-! ## Interner (`crates/core/src/intern.rs`) -/

/-- `StrRef(usize)`: a reference to an interned string. -/
abbrev StrRef : Type := Nat

/-- The pre-declared constants `StrRef::STAR` .. `StrRef::FALSE`
(`intern.rs` lines 12–22). -/
def StrRef.STAR : StrRef := 0

def StrRef.INT : StrRef := 1

def StrRef.REAL : StrRef := 2

def StrRef.WORD : StrRef := 3

def StrRef.CHAR : StrRef := 4

def StrRef.STRING : StrRef := 5

def StrRef.LIST : StrRef := 6

def StrRef.NIL : StrRef := 7

def StrRef.CONS : StrRef := 8

def StrRef.TRUE : StrRef := 9

def StrRef.FALSE : StrRef := 10

/-- `StrStoreMut`: `store: HashMap<String, StrRef>` (as an association list)
plus the `next` counter. -/
structure StrStoreMut where
  store : List (String × StrRef)
  next : Nat

/-- `StrStoreMut::new`: the store holding exactly the eleven built-in names,
with `next = store.len()` (`intern.rs` lines 33–50). -/
def StrStoreMut.new : StrStoreMut :=
  { store :=
      [ ("*", StrRef.STAR), ("int", StrRef.INT), ("real", StrRef.REAL),
        ("word", StrRef.WORD), ("char", StrRef.CHAR), ("string", StrRef.STRING),
        ("list", StrRef.LIST), ("nil", StrRef.NIL), ("::", StrRef.CONS),
        ("true", StrRef.TRUE), ("false", StrRef.FALSE) ]
    next := 11 }

/-- `StrStoreMut::insert_str` (`intern.rs` lines 54–62): return the existing
handle if present, else hand out `next`, record the binding and bump `next`.
Returns the handle together with the updated store (the Rust method mutates
`&mut self`). -/
def StrStoreMut.insert_str (m : StrStoreMut) (s : String) : StrRef × StrStoreMut :=
  match assocLookup m.store s with
  | some id => (id, m)
  | none => (m.next, { store := (s, m.next) :: m.store, next := m.next + 1 })

/-- `StrStoreMut::insert_string` (`intern.rs` lines 65–73): same algorithm as
`insert_str`, written for an owned `String`. -/
def StrStoreMut.insert_string (m : StrStoreMut) (s : String) : StrRef × StrStoreMut :=
  match assocLookup m.store s with
  | some id => (id, m)
  | none => (m.next, { store := (s, m.next) :: m.store, next := m.next + 1 })

/-- `StrStore`: an immutable vector of strings indexed by `StrRef`. -/
structure StrStore where
  store : List String

/-- `StrStoreMut::finish` (`intern.rs` lines 76–83): allocate
`vec![String::new(); store.len()]` and write each interned string at the
index of its handle. -/
def StrStoreMut.finish (m : StrStoreMut) : StrStore :=
  { store := m.store.foldl (fun acc p => acc.set p.2 p.1)
      (List.replicate m.store.length "") }

/-- `StrStore::get` (`intern.rs` lines 93–95): index into the vector.  The
Rust code panics on an out-of-range handle ("looking up a handle not produced
by this store is a programming error"); the embedding totalises with `""`. -/
def StrStore.get (st : StrStore) (id : StrRef) : String :=
  st.store.getD id ""

/-- The eleven built-in bindings installed by `StrStoreMut::new`. -/
def builtinPairs : List (String × StrRef) := StrStoreMut.new.store

/-- The interner invariant (claim about `StrStoreMut`): the store is a map
(string keys unique), handles are injectively assigned, every issued handle
is `< next`, `next` equals the number of bindings (so `finish` can index by
handle), handles below 11 belong only to the built-in bindings, and `next`
never drops below 11. -/
def WFStore (m : StrStoreMut) : Prop :=
  (m.store.map Prod.fst).Nodup ∧
  (m.store.map Prod.snd).Nodup ∧
  (∀ p ∈ m.store, p.2 < m.next) ∧
  m.next = m.store.length ∧
  (∀ p ∈ m.store, p.2 < 11 → p ∈ builtinPairs) ∧
  11 ≤ m.next

instance (m : StrStoreMut) : Decidable (WFStore m) := by
  unfold WFStore; infer_instance

theorem wf_new : WFStore StrStoreMut.new := by decide

/-- A lookup misses exactly when the key is absent from the map. -/
theorem assocLookup_eq_none_iff {α β : Type} [DecidableEq α]
    (l : List (α × β)) (k : α) :
    assocLookup l k = none ↔ k ∉ l.map Prod.fst := by
  induction l with
  | nil => simp [assocLookup]
  | cons p rest ih =>
    obtain ⟨a, b⟩ := p
    by_cases hak : a = k
    · subst hak; simp [assocLookup]
    · simp [assocLookup, hak, ih, Ne.symm hak]

/-- A lookup hit is a binding of the map. -/
theorem assocLookup_mem {α β : Type} [DecidableEq α]
    {l : List (α × β)} {k : α} {v : β} (h : assocLookup l k = some v) :
    (k, v) ∈ l := by
  induction l with
  | nil => simp [assocLookup] at h
  | cons p rest ih =>
    obtain ⟨a, b⟩ := p
    by_cases hak : a = k
    · subst hak
      simp [assocLookup] at h
      simp [h]
    · simp [assocLookup, hak] at h
      exact List.mem_cons_of_mem _ (ih h)

/-- `insert_str` preserves the interner invariant. -/
theorem wf_insert_str (m : StrStoreMut) (s : String) (h : WFStore m) :
    WFStore (m.insert_str s).2 := by
  obtain ⟨hk, hh, hlt, hlen, hbi, h11⟩ := h
  cases hs : assocLookup m.store s with
  | some id => simpa [StrStoreMut.insert_str, hs] using ⟨hk, hh, hlt, hlen, hbi, h11⟩
  | none =>
    simp only [StrStoreMut.insert_str, hs]
    refine ⟨?_, ?_, ?_, ?_, ?_, ?_⟩
    · exact List.Nodup.cons ((assocLookup_eq_none_iff m.store s).mp hs) hk
    · refine List.Nodup.cons ?_ hh
      intro hmem
      simp only [List.mem_map] at hmem
      obtain ⟨p, hp, hps⟩ := hmem
      exact absurd (hps ▸ hlt p hp) (lt_irrefl _)
    · intro p hp
      rcases List.mem_cons.mp hp with rfl | hp'
      · exact Nat.lt_succ_self _
      · exact Nat.lt_succ_of_lt (hlt p hp')
    · simp [hlen]
    · intro p hp hp11
      rcases List.mem_cons.mp hp with rfl | hp'
      · exact absurd (show m.next < 11 from hp11) (by omega)
      · exact hbi p hp' hp11
    · exact Nat.le_succ_of_le h11

/-- After inserting `s`, looking `s` up finds exactly the returned handle. -/
theorem lookup_insert_self (m : StrStoreMut) (s : String) :
    assocLookup (m.insert_str s).2.store s = some (m.insert_str s).1 := by
  cases hs : assocLookup m.store s with
  | some id => simp [StrStoreMut.insert_str, hs]
  | none => simp [StrStoreMut.insert_str, hs, assocLookup]

theorem insert_str_idem (m : StrStoreMut) (s : String) :
    ((m.insert_str s).2.insert_str s).1 = (m.insert_str s).1 := by
  have h := lookup_insert_self m s
  generalize hr : m.insert_str s = r at *
  obtain ⟨id1, m1⟩ := r
  simp only [StrStoreMut.insert_str, h]

/-- The write-loop of `finish` leaves indices it never writes unchanged. -/
theorem foldl_set_not_mem (l : List (String × StrRef)) (A : List String) (i : Nat)
    (h : i ∉ l.map Prod.snd) :
    (l.foldl (fun acc p => acc.set p.2 p.1) A)[i]? = A[i]? := by
  induction l generalizing A with
  | nil => rfl
  | cons p rest ih =>
    obtain ⟨s0, j⟩ := p
    simp only [List.map_cons, List.mem_cons] at h
    push_neg at h
    simp only [List.foldl_cons]
    rw [ih (A.set j s0) h.2, List.getElem?_set_ne (Ne.symm h.1)]

/-- The write-loop of `finish` keeps the accumulator's length. -/
theorem foldl_set_length (l : List (String × StrRef)) (A : List String) :
    (l.foldl (fun acc p => acc.set p.2 p.1) A).length = A.length := by
  induction l generalizing A with
  | nil => rfl
  | cons p rest ih => simp only [List.foldl_cons]; rw [ih, List.length_set]

/-- If handles are distinct and `(s, i)` is a binding with `i` in range, the
write-loop of `finish` places `s` at index `i`. -/
theorem foldl_set_mem (l : List (String × StrRef)) :
    ∀ (A : List String) (s : String) (i : Nat),
      (l.map Prod.snd).Nodup → (s, i) ∈ l → i < A.length →
      (l.foldl (fun acc p => acc.set p.2 p.1) A)[i]? = some s := by
  induction l with
  | nil => intro A s i _ hmem _; simp at hmem
  | cons p rest ih =>
    intro A s i hnd hmem hlt
    obtain ⟨s0, j⟩ := p
    simp only [List.map_cons, List.nodup_cons] at hnd
    simp only [List.foldl_cons]
    rcases List.mem_cons.mp hmem with heq | hmem'
    · injection heq with h1 h2
      subst h1; subst h2
      rw [foldl_set_not_mem rest (A.set i s) i hnd.1,
        List.getElem?_set_eq_of_lt s (by simpa using hlt)]
    · exact ih (A.set j s0) s i hnd.2 hmem' (by simpa using hlt)

/-- On a well-formed store, `finish` followed by `get` recovers every
interned string from its handle. -/
theorem finish_get_of_mem (m : StrStoreMut) (h : WFStore m) {s : String}
    {i : StrRef} (hmem : (s, i) ∈ m.store) : m.finish.get i = s := by
  obtain ⟨_, hh, hlt, hlen, _, _⟩ := h
  have hi : i < m.store.length := hlen ▸ hlt (s, i) hmem
  have := foldl_set_mem m.store (List.replicate m.store.length "") s i hh hmem
    (by simpa using hi)
  unfold StrStoreMut.finish StrStore.get
  rw [List.getD_eq_getD_get?, List.get?_eq_getElem?, this]
  rfl

/-! ### Claims about the interner -/

/-- C5: for all text `s` and any (well-formed) interner state, inserting `s`
twice yields the same handle both times, and after finishing the store,
`get` applied to the handle returned by `insert_str s` returns `s`. -/
theorem insert_str_roundtrip (m : StrStoreMut) (s : String) (h : WFStore m) :
    ((m.insert_str s).2.insert_str s).1 = (m.insert_str s).1 ∧
    StrStore.get (m.insert_str s).2.finish (m.insert_str s).1 = s := by
  refine ⟨insert_str_idem m s, ?_⟩
  exact finish_get_of_mem _ (wf_insert_str m s h)
    (assocLookup_mem (lookup_insert_self m s))

theorem insert_str_roundtrip_witness :
    WFStore StrStoreMut.new ∧
    (((StrStoreMut.new.insert_str "foo").2.insert_str "foo").1 =
        (StrStoreMut.new.insert_str "foo").1 ∧
      StrStore.get (StrStoreMut.new.insert_str "foo").2.finish
          (StrStoreMut.new.insert_str "foo").1 = "foo") :=
  ⟨by decide, insert_str_roundtrip StrStoreMut.new "foo" (by decide)⟩

/-- C6: on a freshly constructed interner each of the eleven built-in names
is already bound to its pre-declared constant handle, and inserting any of
those strings returns that same handle. -/
theorem builtin_names_prebound :
    (assocLookup StrStoreMut.new.store "*" = some StrRef.STAR ∧
      assocLookup StrStoreMut.new.store "int" = some StrRef.INT ∧
      assocLookup StrStoreMut.new.store "real" = some StrRef.REAL ∧
      assocLookup StrStoreMut.new.store "word" = some StrRef.WORD ∧
      assocLookup StrStoreMut.new.store "char" = some StrRef.CHAR ∧
      assocLookup StrStoreMut.new.store "string" = some StrRef.STRING ∧
      assocLookup StrStoreMut.new.store "list" = some StrRef.LIST ∧
      assocLookup StrStoreMut.new.store "nil" = some StrRef.NIL ∧
      assocLookup StrStoreMut.new.store "::" = some StrRef.CONS ∧
      assocLookup StrStoreMut.new.store "true" = some StrRef.TRUE ∧
      assocLookup StrStoreMut.new.store "false" = some StrRef.FALSE) ∧
    ((StrStoreMut.new.insert_str "*").1 = StrRef.STAR ∧
      (StrStoreMut.new.insert_str "int").1 = StrRef.INT ∧
      (StrStoreMut.new.insert_str "real").1 = StrRef.REAL ∧
      (StrStoreMut.new.insert_str "word").1 = StrRef.WORD ∧
      (StrStoreMut.new.insert_str "char").1 = StrRef.CHAR ∧
      (StrStoreMut.new.insert_str "string").1 = StrRef.STRING ∧
      (StrStoreMut.new.insert_str "list").1 = StrRef.LIST ∧
      (StrStoreMut.new.insert_str "nil").1 = StrRef.NIL ∧
      (StrStoreMut.new.insert_str "::").1 = StrRef.CONS ∧
      (StrStoreMut.new.insert_str "true").1 = StrRef.TRUE ∧
      (StrStoreMut.new.insert_str "false").1 = StrRef.FALSE) := by
  decide

/-- C8: the interner invariant `WFStore` (injective string-to-handle map,
`next` above every issued handle) is established by `new`, preserved by
`insert_str` and `insert_string`; consequently two distinct entries never
share a handle, a non-built-in string never receives a handle below 11, and
every index of the `finish` vector is assigned exactly once. -/
theorem intern_invariant :
    WFStore StrStoreMut.new ∧
    (∀ m s, WFStore m → WFStore (m.insert_str s).2) ∧
    (∀ m s, WFStore m → WFStore (m.insert_string s).2) ∧
    (∀ m (s₁ s₂ : String) (i : StrRef), WFStore m →
      (s₁, i) ∈ m.store → (s₂, i) ∈ m.store → s₁ = s₂) ∧
    (∀ m s, WFStore m → s ∉ builtinPairs.map Prod.fst →
      11 ≤ (m.insert_str s).1) ∧
    (∀ m, WFStore m → ∀ i, i < m.store.length → ∃! s, (s, i) ∈ m.store) := by
  refine ⟨wf_new, fun m s h => wf_insert_str m s h,
    fun m s h => wf_insert_str m s h, ?_, ?_, ?_⟩
  · intro m s₁ s₂ i h h₁ h₂
    have hinj := List.inj_on_of_nodup_map h.2.1
    have := hinj h₁ h₂ rfl
    exact congrArg Prod.fst this
  · intro m s h hs
    obtain ⟨_, _, _, _, hbi, h11⟩ := h
    cases hl : assocLookup m.store s with
    | some id =>
      have hid : 11 ≤ id := by
        by_contra hlt
        have : (s, id) ∈ builtinPairs :=
          hbi _ (assocLookup_mem hl) (Nat.not_le.mp hlt)
        exact hs (List.mem_map_of_mem Prod.fst this)
      simpa [StrStoreMut.insert_str, hl] using hid
    | none => simpa [StrStoreMut.insert_str, hl] using h11
  · intro m h i hi
    obtain ⟨_, hh, hlt, hlen, _, _⟩ := h
    have hcard : (m.store.map Prod.snd).toFinset = Finset.range m.store.length := by
      refine Finset.eq_of_subset_of_card_le ?_ ?_
      · intro x hx
        simp only [List.mem_toFinset, List.mem_map] at hx
        obtain ⟨p, hp, rfl⟩ := hx
        exact Finset.mem_range.mpr (hlen ▸ hlt p hp)
      · rw [Finset.card_range, List.toFinset_card_of_nodup hh, List.length_map]
    have hmem : i ∈ m.store.map Prod.snd := by
      rw [← List.mem_toFinset, hcard]
      exact Finset.mem_range.mpr hi
    simp only [List.mem_map] at hmem
    obtain ⟨⟨s, j⟩, hp, hj⟩ := hmem
    subst hj
    refine ⟨s, hp, ?_⟩
    intro s' hs'
    have hinj := List.inj_on_of_nodup_map hh
    exact congrArg Prod.fst (hinj hs' hp rfl)

theorem intern_invariant_witness :
    WFStore StrStoreMut.new ∧ WFStore (StrStoreMut.new.insert_str "bar").2 :=
  ⟨intern_invariant.1, intern_invariant.2.1 StrStoreMut.new "bar" intern_invariant.1⟩

/-- C9: the borrowed-slice (`insert_str`) and owned-string (`insert_string`)
insertion paths return equal handles and leave equal states on every input. -/
theorem insert_str_eq_insert_string (m : StrStoreMut) (s : String) :
    m.insert_str s = m.insert_string s := rfl

/-! ## Types and the pretty-printer (`crates/cli/src/diagnostic.rs`) -/

/-- `ast::Label` as consumed by `diagnostic.rs`: a record label is either a
textual identifier (`Vid`) or a positional number (`Num`). -/
inductive Label where
  | vid (id : StrRef)
  | num (n : Nat)
deriving DecidableEq

/-- Modelled from the spec: the `Sym` type itself is not in the excerpt
(only its uses in `sig_match.rs` and `diagnostic.rs` are).  Per §3 a symbol
carries the identifier handle of the name it was introduced under (exposed
as `name()`) and a uniqueness discriminant; equality is token identity. -/
structure Sym where
  name : StrRef
  stamp : Nat
deriving DecidableEq

/-- `statics::Ty` as consumed by `show_ty_impl` in `diagnostic.rs`: type
variable, record type (label-to-type rows), arrow type, applied type
constructor. -/
inductive Ty where
  | var (tv : Nat)
  | record (rows : List (Label × Ty))
  | arrow (lhs rhs : Ty)
  | ctor (args : List Ty) (sym : Sym)

/-- Modelled from the spec: the `Display` impl used by `tv.to_string()` in
`diagnostic.rs` is not in the excerpt; §6 only requires that type variables
render as a stable per-variable token. -/
def showTyVar (tv : Nat) : String := "'" ++ toString tv

/-- `show_lab` (`diagnostic.rs` lines 110–115). -/
def show_lab (store : StrStore) : Label → String
  | .vid id => store.get id
  | .num n => toString n

/- `show_ty_impl` (`diagnostic.rs` lines 123–163) together with `show_row`
(lines 165–169).  The Rust code appends to a `&mut String` buffer; the
embedding returns the appended text, concatenated in push order. -/
mutual

def show_ty_impl (store : StrStore) : Ty → String
  | .var tv => showTyVar tv
  | .record [] => "\x7b " ++ " \x7d"
  | .record (r :: rest) => "\x7b " ++ show_row store r ++ show_rows store rest ++ " \x7d"
  | .arrow lhs rhs =>
      "(" ++ show_ty_impl store lhs ++ ") -> (" ++ show_ty_impl store rhs ++ ")"
  | .ctor [] sym => store.get sym.name
  | .ctor (a :: rest) sym =>
      "(" ++ show_ty_impl store a ++ show_args store rest ++ ") " ++ store.get sym.name

def show_row (store : StrStore) : Label × Ty → String
  | (lab, ty) => show_lab store lab ++ " : " ++ show_ty_impl store ty

def show_rows (store : StrStore) : List (Label × Ty) → String
  | [] => ""
  | r :: rest => ", " ++ show_row store r ++ show_rows store rest

def show_args (store : StrStore) : List Ty → String
  | [] => ""
  | a :: rest => ", " ++ show_ty_impl store a ++ show_args store rest

end

/-- `show_ty` (`diagnostic.rs` lines 117–121): print into an empty buffer. -/
def show_ty (store : StrStore) (ty : Ty) : String := show_ty_impl store ty

/-- The separated-concatenation pattern produced by the printer's
"first element, then `sep ++ element` for the rest" loops. -/
def sepConcat (sep : String) : List String → String
  | [] => ""
  | a :: as => sep ++ a ++ sepConcat sep as

theorem intercalate_go_eq (sep : String) (as : List String) :
    ∀ acc, String.intercalate.go acc sep as = acc ++ sepConcat sep as := by
  induction as with
  | nil => intro acc; simp [String.intercalate.go, sepConcat]
  | cons a as ih =>
    intro acc
    simp only [String.intercalate.go, sepConcat, ih, String.append_assoc]

theorem intercalate_eq_sepConcat (sep : String) (a : String) (as : List String) :
    String.intercalate sep (a :: as) = a ++ sepConcat sep as := by
  simp only [String.intercalate, intercalate_go_eq]

theorem show_rows_eq_sepConcat (store : StrStore) (rs : List (Label × Ty)) :
    show_rows store rs = sepConcat ", " (rs.map (show_row store)) := by
  induction rs with
  | nil => rfl
  | cons r rest ih => simp only [show_rows, List.map_cons, sepConcat, ih,
      String.append_assoc]

theorem show_args_eq_sepConcat (store : StrStore) (ts : List Ty) :
    show_args store ts = sepConcat ", " (ts.map (show_ty_impl store)) := by
  induction ts with
  | nil => rfl
  | cons t rest ih => simp only [show_args, List.map_cons, sepConcat, ih,
      String.append_assoc]

/-- C7: record types render as `{ label : ty, ... }` in the iteration order
of their row mapping, arrow types as `(dom) -> (rng)`, applied constructors
with arguments as `(arg, ...) ctor-name`, and zero-argument constructors as
their bare name. -/
theorem show_ty_format (store : StrStore) :
    (∀ rows, show_ty_impl store (.record rows) =
      "\x7b " ++ String.intercalate ", " (rows.map (show_row store)) ++ " \x7d") ∧
    (∀ lhs rhs, show_ty_impl store (.arrow lhs rhs) =
      "(" ++ show_ty_impl store lhs ++ ") -> (" ++ show_ty_impl store rhs ++ ")") ∧
    (∀ args sym, args ≠ [] → show_ty_impl store (.ctor args sym) =
      "(" ++ String.intercalate ", " (args.map (show_ty_impl store)) ++ ") " ++
        store.get sym.name) ∧
    (∀ sym, show_ty_impl store (.ctor [] sym) = store.get sym.name) := by
  refine ⟨?_, fun lhs rhs => rfl, ?_, fun sym => rfl⟩
  · intro rows
    cases rows with
    | nil => simp [show_ty_impl, String.intercalate]
    | cons r rest =>
      rw [show_ty_impl, List.map_cons, intercalate_eq_sepConcat,
        ← show_rows_eq_sepConcat]
      simp [String.append_assoc]
  · intro args sym hne
    cases args with
    | nil => exact absurd rfl hne
    | cons a rest =>
      rw [show_ty_impl, List.map_cons, intercalate_eq_sepConcat,
        ← show_args_eq_sepConcat]
      simp [String.append_assoc]

theorem show_ty_format_witness :
    ([Ty.var 1] ≠ []) ∧
    show_ty_impl (StrStore.mk ["t"]) (.ctor [Ty.var 1] ⟨0, 0⟩) =
      "(" ++ String.intercalate ", "
          ([Ty.var 1].map (show_ty_impl (StrStore.mk ["t"]))) ++ ") " ++
        (StrStore.mk ["t"]).get (Sym.mk 0 0).name :=
  ⟨List.cons_ne_nil _ _,
    (show_ty_format (StrStore.mk ["t"])).2.2.1 [Ty.var 1] ⟨0, 0⟩
      (List.cons_ne_nil _ _)⟩

/-! ## Signature matching (`crates/core/src/statics/ck/sig_match.rs`) -/

/-- `Loc`: an opaque source span. -/
abbrev Loc : Type := Nat

/-- `Located<T>` (`loc.rs`): a value tagged with a source location;
`loc.wrap(v)` builds one. -/
structure Located (α : Type) where
  loc : Loc
  val : α
deriving DecidableEq

/-- Modelled from the spec: the item-kind tag carried by the `Undefined`
error ("undefined identifier (with an item-kind tag: value/type/structure)",
§4.6); the tag's own enum is not in the excerpt. -/
inductive Item where
  | val
  | ty
  | struc
deriving DecidableEq

/-- `StaticsError` (`statics`), the closed error taxonomy; variants and
payloads transcribed from the exhaustive match in `diagnostic.rs`
lines 54–104. -/
inductive StaticsError where
  | undefined (item : Item) (id : Located StrRef)
  | redefined (id : Located StrRef)
  | duplicateLabel (lab : Located Label)
  | circularity (loc : Loc) (tv : Nat) (ty : Ty)
  | headMismatch (loc : Loc) (lhs rhs : Ty)
  | missingLabel (loc : Loc) (lab : Label)
  | valAsPat (loc : Loc)
  | wrongNumTyArgs (loc : Loc) (want got : Nat)
  | nonVarInAs (name : Located StrRef)
  | forbiddenBinding (loc : Loc) (name : StrRef)
  | noSuitableOverload (loc : Loc)
  | todo (loc : Loc)

/-- Modelled from the spec: type functions ("arity + a `Ty` body possibly
containing bound parameter variables", §3); `types.rs` is not in the
excerpt.  Signature matching treats them opaquely. -/
structure TyFcn where
  arity : Nat
  ty : Ty

/-- Modelled from the spec: the entry of the elaboration state's type-name
table for one symbol ("symbol → its current type function / arity", §3);
`sig_match.rs` reads its `ty_fcn` field. -/
structure TyInfo where
  ty_fcn : TyFcn

/-- Modelled from the spec: type schemes ("a `Ty` closed over a set of
generalized type variables", §3), opaque to signature matching. -/
structure TyScheme where
  numVars : Nat
  ty : Ty

/-- Modelled from the spec: the value-kind tag of a value-environment entry
("ordinary value vs. data constructor vs. exception constructor", §4.4). -/
inductive IdStatus where
  | ordinary
  | con
  | exn
deriving DecidableEq

/-- Modelled from the spec: a value-environment entry ("type scheme +
value-kind tag", §3). -/
structure ValInfo where
  ty_scheme : TyScheme
  id_status : IdStatus

/-- Modelled from the spec: `Env` ("triple of structure environment: name →
nested Env; type environment: name → entry; value environment: name → type
scheme + value-kind tag", §3); `types.rs` is not in the excerpt.  The type
environment maps a name to the `Sym` it denotes, which `sig_match.rs`
resolves through the state's type-name table (`TyEnv`'s `inner` wrapper is
flattened).  Maps are association lists. -/
inductive Env where
  | mk (strs : List (StrRef × Env)) (tys : List (StrRef × Sym))
      (vals : List (StrRef × ValInfo))

/-- The `str_env` field. -/
def Env.str_env : Env → List (StrRef × Env)
  | .mk strs _ _ => strs

/-- The `ty_env` field (its `inner` map). -/
def Env.ty_env : Env → List (StrRef × Sym)
  | .mk _ tys _ => tys

/-- The `val_env` field. -/
def Env.val_env : Env → List (StrRef × ValInfo)
  | .mk _ _ vals => vals

/-- `Sig` ("essentially a 2-tuple of a set of bound type names and an
environment", comment in `sig_match.rs`); the bound-name set is carried as a
list. -/
structure Sig where
  ty_names : List Sym
  env : Env

/-- Modelled from the spec: `TyRealization` (`ty_rzn.rs` is not in the
excerpt): "a partial substitution from bound symbols to type functions"
(§3), built by `insert_ty_fcn` and read through `lookupSym`. -/
def TyRealization : Type := List (Sym × TyFcn)

/-- `TyRealization::default()`: the empty realization. -/
def TyRealization.default : TyRealization := []

/-- `TyRealization::insert_ty_fcn`: record `sym → fcn`. -/
def TyRealization.insert_ty_fcn (rzn : TyRealization) (sym : Sym) (fcn : TyFcn) :
    TyRealization :=
  (sym, fcn) :: rzn

/-- Lookup in a realization. -/
def TyRealization.lookupSym (rzn : TyRealization) (sym : Sym) : Option TyFcn :=
  assocLookup rzn sym

/-- Modelled from the spec: the elaboration state as seen by `sig_match.rs`:
its `tys` table maps "every symbol ever generated to its current
type-function binding" (§3), so the embedding uses a total function. -/
structure State where
  tys : Sym → TyInfo

/-- Modelled from the spec: `get_ty_sym` (`util.rs` is not in the excerpt):
"look that name up in `candidate_env`'s type environment to obtain the
candidate's concrete symbol for that name (error Undefined if absent)"
(§4.5 step 1). -/
def get_ty_sym (env : Env) (name : Located StrRef) : Except StaticsError Sym :=
  match assocLookup env.ty_env name.val with
  | some sym => Except.ok sym
  | none => Except.error (StaticsError.undefined Item.ty name)

/-- The oracle deciding the unification-based equality of two type functions
under a realization (the elided unification engine). -/
def TyOracle : Type :=
  TyRealization → (Sym → TyInfo) → Sym → Sym → Except StaticsError Unit

/-- The oracle deciding the scheme-generality and kind-tag check between a
candidate and a target value entry under a realization. -/
def ValOracle : Type :=
  TyRealization → ValInfo → ValInfo → Except StaticsError Unit

/-- Modelled from the spec: the type-component loop of `enrich::ck`
(`enrich.rs` is not in the excerpt): "for every name in `target_env`'s type
environment, a same-named type must exist in `candidate_env`; the
candidate's type function must be equal, under realization, to the target's"
(§4.4); the unification-based equality itself is the `tyOk` oracle. -/
def enrich_tys (tyOk : TyOracle) (loc : Loc) (tys : Sym → TyInfo)
    (rzn : TyRealization) (cands : List (StrRef × Sym)) :
    List (StrRef × Sym) → Except StaticsError Unit
  | [] => Except.ok ()
  | (n, tgtSym) :: rest =>
    match assocLookup cands n with
    | none => Except.error (StaticsError.undefined Item.ty ⟨loc, n⟩)
    | some candSym =>
      match tyOk rzn tys tgtSym candSym with
      | Except.error e => Except.error e
      | Except.ok () => enrich_tys tyOk loc tys rzn cands rest

/-- Modelled from the spec: the value-component loop of `enrich::ck`
(`enrich.rs` is not in the excerpt): "for every name in `target_env`'s value
environment, a same-named value must exist with a type scheme at least as
general ...; value/constructor-kind tags must match exactly" (§4.4); the
scheme/tag comparison itself is the `valOk` oracle. -/
def enrich_vals (valOk : ValOracle) (loc : Loc) (rzn : TyRealization)
    (cands : List (StrRef × ValInfo)) :
    List (StrRef × ValInfo) → Except StaticsError Unit
  | [] => Except.ok ()
  | (n, tgtVi) :: rest =>
    match assocLookup cands n with
    | none => Except.error (StaticsError.undefined Item.val ⟨loc, n⟩)
    | some candVi =>
      match valOk rzn candVi tgtVi with
      | Except.error e => Except.error e
      | Except.ok () => enrich_vals valOk loc rzn cands rest

/- Modelled from the spec: `enrich::ck` (`enrich.rs` is not in the excerpt):
"for every name in `target_env`'s structure environment, a same-named
structure must exist in `candidate_env`; recurse", then the type and value
component checks (§4.4). -/
mutual

def enrich_ck (tyOk : TyOracle) (valOk : ValOracle) (loc : Loc)
    (tys : Sym → TyInfo) (rzn : TyRealization) (cand : Env) :
    Env → Except StaticsError Unit
  | .mk tstrs ttys tvals =>
    match enrich_strs tyOk valOk loc tys rzn cand.str_env tstrs with
    | Except.error e => Except.error e
    | Except.ok () =>
      match enrich_tys tyOk loc tys rzn cand.ty_env ttys with
      | Except.error e => Except.error e
      | Except.ok () => enrich_vals valOk loc rzn cand.val_env tvals

def enrich_strs (tyOk : TyOracle) (valOk : ValOracle) (loc : Loc)
    (tys : Sym → TyInfo) (rzn : TyRealization) (cands : List (StrRef × Env)) :
    List (StrRef × Env) → Except StaticsError Unit
  | [] => Except.ok ()
  | (n, tgtSub) :: rest =>
    match assocLookup cands n with
    | none => Except.error (StaticsError.undefined Item.struc ⟨loc, n⟩)
    | some candSub =>
      match enrich_ck tyOk valOk loc tys rzn candSub tgtSub with
      | Except.error e => Except.error e
      | Except.ok () => enrich_strs tyOk valOk loc tys rzn cands rest

end

/-- The witness-construction loop of `ck` (`sig_match.rs` lines 33–39),
written with an explicit accumulator: for each bound symbol, resolve its
textual name in the candidate's type environment, fetch that candidate
symbol's current type function from the state's table, and record
bound-symbol → type-function in the realization. -/
def build_ty_rzn (st : State) (loc : Loc) (env : Env) :
    List Sym → TyRealization → Except StaticsError TyRealization
  | [], rzn => Except.ok rzn
  | b :: rest, rzn =>
    match get_ty_sym env ⟨loc, b.name⟩ with
    | Except.error e => Except.error e
    | Except.ok envTySym =>
      build_ty_rzn st loc env rest
        (rzn.insert_ty_fcn b (st.tys envTySym).ty_fcn)

/-- `ck` (`sig_match.rs` lines 32–62): build the realization, run the
enrichment check under it, then restrict the candidate environment to the
names the signature's environment mentions. -/
def sig_match_ck (tyOk : TyOracle) (valOk : ValOracle) (st : State)
    (loc : Loc) (env : Env) (sg : Sig) :
    Except StaticsError (Env × TyRealization) :=
  match build_ty_rzn st loc env sg.ty_names TyRealization.default with
  | Except.error e => Except.error e
  | Except.ok ty_rzn =>
    match enrich_ck tyOk valOk loc st.tys ty_rzn env sg.env with
    | Except.error e => Except.error e
    | Except.ok () =>
      Except.ok
        (Env.mk
          (env.str_env.filter fun p => containsKey sg.env.str_env p.1)
          (env.ty_env.filter fun p => containsKey sg.env.ty_env p.1)
          (env.val_env.filter fun p => containsKey sg.env.val_env p.1),
         ty_rzn)

/-! ### Lemmas about lookup, filtering and the matcher's phases -/

theorem containsKey_of_lookup {α β : Type} [DecidableEq α]
    {l : List (α × β)} {k : α} {v : β} (h : assocLookup l k = some v) :
    containsKey l k = true := by
  simp [containsKey, h]

theorem mem_keys_of_containsKey {α β : Type} [DecidableEq α]
    {l : List (α × β)} {k : α} (h : containsKey l k = true) :
    k ∈ l.map Prod.fst := by
  by_contra hk
  rw [containsKey, (assocLookup_eq_none_iff l k).mpr hk] at h
  exact Bool.noConfusion h

theorem containsKey_of_mem_keys {α β : Type} [DecidableEq α]
    {l : List (α × β)} {k : α} (h : k ∈ l.map Prod.fst) :
    containsKey l k = true := by
  rw [containsKey]
  cases hl : assocLookup l k with
  | some v => rfl
  | none => exact absurd ((assocLookup_eq_none_iff l k).mp hl) (not_not.mpr h)

/-- Keys of a key-based filter: present iff present before and accepted. -/
theorem mem_keys_filter {α β : Type} [DecidableEq α]
    (l : List (α × β)) (q : α → Bool) (k : α) :
    k ∈ (l.filter fun p => q p.1).map Prod.fst ↔
      k ∈ l.map Prod.fst ∧ q k = true := by
  constructor
  · intro h
    simp only [List.mem_map] at h
    obtain ⟨p, hp, rfl⟩ := h
    have := List.mem_filter.mp hp
    exact ⟨List.mem_map_of_mem Prod.fst this.1, this.2⟩
  · rintro ⟨h, hq⟩
    simp only [List.mem_map] at h
    obtain ⟨p, hp, rfl⟩ := h
    exact List.mem_map_of_mem Prod.fst (List.mem_filter.mpr ⟨hp, hq⟩)

/-- Looking up an accepted key in a key-based filter agrees with the
unfiltered lookup. -/
theorem assocLookup_filter_pos {α β : Type} [DecidableEq α]
    (l : List (α × β)) (q : α → Bool) (k : α) (hq : q k = true) :
    assocLookup (l.filter fun p => q p.1) k = assocLookup l k := by
  induction l with
  | nil => rfl
  | cons p rest ih =>
    obtain ⟨a, b⟩ := p
    by_cases hak : a = k
    · subst hak
      simp [List.filter_cons, hq, assocLookup]
    · by_cases hqa : q a
      · simp [List.filter_cons, hqa, assocLookup, hak, ih]
      · simp only [List.filter_cons] at *
        simp [hqa, assocLookup, hak, ih]

/-- Looking up a rejected key in a key-based filter misses. -/
theorem assocLookup_filter_neg {α β : Type} [DecidableEq α]
    (l : List (α × β)) (q : α → Bool) (k : α) (hq : q k = false) :
    assocLookup (l.filter fun p => q p.1) k = none := by
  rw [assocLookup_eq_none_iff]
  intro hk
  have := (mem_keys_filter l q k).mp hk
  rw [hq] at this
  exact Bool.noConfusion this.2

/-- A successful type-component loop found every target type name in the
candidate's type environment. -/
theorem enrich_tys_names (tyOk : TyOracle) (loc : Loc) (tys : Sym → TyInfo)
    (rzn : TyRealization) (cands : List (StrRef × Sym)) :
    ∀ tgts, enrich_tys tyOk loc tys rzn cands tgts = Except.ok () →
      ∀ p ∈ tgts, containsKey cands p.1 = true := by
  intro tgts
  induction tgts with
  | nil => intro _ p hp; simp at hp
  | cons q rest ih =>
    intro h p hp
    obtain ⟨n, tgtSym⟩ := q
    simp only [enrich_tys] at h
    cases hl : assocLookup cands n with
    | none => rw [hl] at h; exact Except.noConfusion h
    | some candSym =>
      simp only [hl] at h
      cases ho : tyOk rzn tys tgtSym candSym with
      | error e => simp only [ho] at h; exact Except.noConfusion h
      | ok u =>
        cases u
        simp only [ho] at h
        rcases List.mem_cons.mp hp with rfl | hp'
        · exact containsKey_of_lookup hl
        · exact ih h p hp'

/-- A successful value-component loop found every target value name in the
candidate's value environment. -/
theorem enrich_vals_names (valOk : ValOracle) (loc : Loc)
    (rzn : TyRealization) (cands : List (StrRef × ValInfo)) :
    ∀ tgts, enrich_vals valOk loc rzn cands tgts = Except.ok () →
      ∀ p ∈ tgts, containsKey cands p.1 = true := by
  intro tgts
  induction tgts with
  | nil => intro _ p hp; simp at hp
  | cons q rest ih =>
    intro h p hp
    obtain ⟨n, tgtVi⟩ := q
    simp only [enrich_vals] at h
    cases hl : assocLookup cands n with
    | none => rw [hl] at h; exact Except.noConfusion h
    | some candVi =>
      simp only [hl] at h
      cases ho : valOk rzn candVi tgtVi with
      | error e => simp only [ho] at h; exact Except.noConfusion h
      | ok u =>
        cases u
        simp only [ho] at h
        rcases List.mem_cons.mp hp with rfl | hp'
        · exact containsKey_of_lookup hl
        · exact ih h p hp'

/-- A successful structure-component loop found every target structure name
in the candidate's structure environment. -/
theorem enrich_strs_names (tyOk : TyOracle) (valOk : ValOracle) (loc : Loc)
    (tys : Sym → TyInfo) (rzn : TyRealization) (cands : List (StrRef × Env)) :
    ∀ tgts, enrich_strs tyOk valOk loc tys rzn cands tgts = Except.ok () →
      ∀ p ∈ tgts, containsKey cands p.1 = true := by
  intro tgts
  induction tgts with
  | nil => intro _ p hp; simp at hp
  | cons q rest ih =>
    intro h p hp
    obtain ⟨n, tgtSub⟩ := q
    simp only [enrich_strs] at h
    cases hl : assocLookup cands n with
    | none => rw [hl] at h; exact Except.noConfusion h
    | some candSub =>
      simp only [hl] at h
      cases ho : enrich_ck tyOk valOk loc tys rzn candSub tgtSub with
      | error e => simp only [ho] at h; exact Except.noConfusion h
      | ok u =>
        cases u
        simp only [ho] at h
        rcases List.mem_cons.mp hp with rfl | hp'
        · exact containsKey_of_lookup hl
        · exact ih h p hp'

/-- A successful enrichment check found every top-level name of the target
environment in the candidate environment. -/
theorem enrich_ck_names (tyOk : TyOracle) (valOk : ValOracle) (loc : Loc)
    (tys : Sym → TyInfo) (rzn : TyRealization) (cand tgt : Env)
    (h : enrich_ck tyOk valOk loc tys rzn cand tgt = Except.ok ()) :
    (∀ p ∈ tgt.str_env, containsKey cand.str_env p.1 = true) ∧
    (∀ p ∈ tgt.ty_env, containsKey cand.ty_env p.1 = true) ∧
    (∀ p ∈ tgt.val_env, containsKey cand.val_env p.1 = true) := by
  obtain ⟨tstrs, ttys, tvals⟩ := tgt
  simp only [enrich_ck] at h
  cases hs : enrich_strs tyOk valOk loc tys rzn cand.str_env tstrs with
  | error e => rw [hs] at h; exact Except.noConfusion h
  | ok u =>
    cases u
    rw [hs] at h
    cases ht : enrich_tys tyOk loc tys rzn cand.ty_env ttys with
    | error e => rw [ht] at h; exact Except.noConfusion h
    | ok u =>
      cases u
      rw [ht] at h
      exact ⟨enrich_strs_names tyOk valOk loc tys rzn _ _ hs,
        enrich_tys_names tyOk loc tys rzn _ _ ht,
        enrich_vals_names valOk loc rzn _ _ h⟩

/-- If every bound symbol before `b` resolves and `b`'s name is absent from
the candidate's type environment, witness construction fails with
`Undefined` at `b`'s name. -/
theorem build_ty_rzn_error (st : State) (loc : Loc) (env : Env) :
    ∀ (pre : List Sym) (b : Sym) (post : List Sym) (acc : TyRealization),
      (∀ b' ∈ pre, (assocLookup env.ty_env b'.name).isSome = true) →
      assocLookup env.ty_env b.name = none →
      build_ty_rzn st loc env (pre ++ b :: post) acc =
        Except.error (StaticsError.undefined Item.ty ⟨loc, b.name⟩) := by
  intro pre
  induction pre with
  | nil =>
    intro b post acc _ habs
    simp only [List.nil_append, build_ty_rzn, get_ty_sym, habs]
  | cons b0 rest ih =>
    intro b post acc hpre habs
    have h0 := hpre b0 (List.mem_cons_self b0 rest)
    cases hl : assocLookup env.ty_env b0.name with
    | none => rw [hl] at h0; exact Bool.noConfusion h0
    | some cs0 =>
      simp only [List.cons_append, build_ty_rzn, get_ty_sym, hl]
      exact ih b post _ (fun b' hb' => hpre b' (List.mem_cons_of_mem b0 hb')) habs

/-- Witness construction never touches symbols outside its worklist. -/
theorem build_ty_rzn_frame (st : State) (loc : Loc) (env : Env) :
    ∀ (syms : List Sym) (acc rzn : TyRealization),
      build_ty_rzn st loc env syms acc = Except.ok rzn →
      ∀ s : Sym, s ∉ syms → rzn.lookupSym s = acc.lookupSym s := by
  intro syms
  induction syms with
  | nil =>
    intro acc rzn h s _
    simp only [build_ty_rzn] at h
    injection h with h
    rw [h]
  | cons b rest ih =>
    intro acc rzn h s hs
    simp only [build_ty_rzn, get_ty_sym] at h
    cases hl : assocLookup env.ty_env b.name with
    | none => rw [hl] at h; exact Except.noConfusion h
    | some cs =>
      rw [hl] at h
      have hsr : s ∉ rest := fun hr => hs (List.mem_cons_of_mem b hr)
      have hsb : s ≠ b := fun he => hs (he ▸ List.mem_cons_self b rest)
      rw [ih _ rzn h s hsr]
      simp [TyRealization.lookupSym, TyRealization.insert_ty_fcn, assocLookup,
        Ne.symm hsb]

/-- On success, witness construction recorded, for every bound symbol of its
worklist, the type function of the same-named candidate symbol as fetched
from the state's table. -/
theorem build_ty_rzn_maps (st : State) (loc : Loc) (env : Env) :
    ∀ (syms : List Sym) (acc rzn : TyRealization),
      build_ty_rzn st loc env syms acc = Except.ok rzn →
      ∀ b ∈ syms, ∃ cs, assocLookup env.ty_env b.name = some cs ∧
        rzn.lookupSym b = some (st.tys cs).ty_fcn := by
  intro syms
  induction syms with
  | nil => intro acc rzn _ b hb; simp at hb
  | cons b0 rest ih =>
    intro acc rzn h b hb
    simp only [build_ty_rzn, get_ty_sym] at h
    cases hl : assocLookup env.ty_env b0.name with
    | none => rw [hl] at h; exact Except.noConfusion h
    | some cs0 =>
      rw [hl] at h
      by_cases hbr : b ∈ rest
      · exact ih _ rzn h b hbr
      · have hbb : b = b0 := by
          rcases List.mem_cons.mp hb with he | hr
          · exact he
          · exact absurd hr hbr
        subst hbb
        refine ⟨cs0, hl, ?_⟩
        rw [build_ty_rzn_frame st loc env rest _ rzn h b hbr]
        simp [TyRealization.lookupSym, TyRealization.insert_ty_fcn, assocLookup]

/-- On success, every symbol in the realization's domain came from the
worklist or was already in the accumulator. -/
theorem build_ty_rzn_domain (st : State) (loc : Loc) (env : Env) :
    ∀ (syms : List Sym) (acc rzn : TyRealization),
      build_ty_rzn st loc env syms acc = Except.ok rzn →
      ∀ s : Sym, (rzn.lookupSym s).isSome = true →
        s ∈ syms ∨ (acc.lookupSym s).isSome = true := by
  intro syms
  induction syms with
  | nil =>
    intro acc rzn h s hsome
    simp only [build_ty_rzn] at h
    injection h with h
    exact Or.inr (h ▸ hsome)
  | cons b0 rest ih =>
    intro acc rzn h s hsome
    simp only [build_ty_rzn, get_ty_sym] at h
    cases hl : assocLookup env.ty_env b0.name with
    | none => rw [hl] at h; exact Except.noConfusion h
    | some cs0 =>
      rw [hl] at h
      rcases ih _ rzn h s hsome with hr | hacc
      · exact Or.inl (List.mem_cons_of_mem b0 hr)
      · by_cases hsb : s = b0
        · exact Or.inl (hsb ▸ List.mem_cons_self b0 rest)
        · right
          simpa [TyRealization.lookupSym, TyRealization.insert_ty_fcn,
            assocLookup, Ne.symm hsb] using hacc

/-- Inversion of a successful `sig_match_ck` run: the realization is the one
built by the witness loop, enrichment succeeded under it, and the returned
environment is the name-filtered candidate. -/
theorem sig_match_ck_ok_inv (tyOk : TyOracle) (valOk : ValOracle) (st : State)
    (loc : Loc) (env : Env) (sg : Sig) (env' : Env) (rzn : TyRealization)
    (h : sig_match_ck tyOk valOk st loc env sg = Except.ok (env', rzn)) :
    build_ty_rzn st loc env sg.ty_names TyRealization.default = Except.ok rzn ∧
    enrich_ck tyOk valOk loc st.tys rzn env sg.env = Except.ok () ∧
    env' = Env.mk
      (env.str_env.filter fun p => containsKey sg.env.str_env p.1)
      (env.ty_env.filter fun p => containsKey sg.env.ty_env p.1)
      (env.val_env.filter fun p => containsKey sg.env.val_env p.1) := by
  unfold sig_match_ck at h
  cases hb : build_ty_rzn st loc env sg.ty_names TyRealization.default with
  | error e => rw [hb] at h; exact Except.noConfusion h
  | ok rzn₀ =>
    simp only [hb] at h
    cases he : enrich_ck tyOk valOk loc st.tys rzn₀ env sg.env with
    | error e => rw [he] at h; exact Except.noConfusion h
    | ok u =>
      cases u
      simp only [he] at h
      injection h with hpr
      injection hpr with h1 h2
      subst h2
      exact ⟨rfl, he, h1.symm⟩

/-! ### Claims about signature matching -/

/-- C1: whenever `sig_match`'s `ck` succeeds, the name sets of the returned
restricted environment's structure, type, and value environments each equal
the corresponding name sets of the signature's environment — never more,
never fewer. -/
theorem sig_match_restriction_names (tyOk : TyOracle) (valOk : ValOracle)
    (st : State) (loc : Loc) (env : Env) (sg : Sig) (env' : Env)
    (rzn : TyRealization)
    (h : sig_match_ck tyOk valOk st loc env sg = Except.ok (env', rzn)) :
    (∀ n, n ∈ env'.str_env.map Prod.fst ↔ n ∈ sg.env.str_env.map Prod.fst) ∧
    (∀ n, n ∈ env'.ty_env.map Prod.fst ↔ n ∈ sg.env.ty_env.map Prod.fst) ∧
    (∀ n, n ∈ env'.val_env.map Prod.fst ↔ n ∈ sg.env.val_env.map Prod.fst) := by
  obtain ⟨hb, he, henv⟩ := sig_match_ck_ok_inv tyOk valOk st loc env sg env' rzn h
  obtain ⟨hstr, hty, hval⟩ := enrich_ck_names tyOk valOk loc st.tys rzn env sg.env he
  subst henv
  refine ⟨fun n => ?_, fun n => ?_, fun n => ?_⟩
  · simp only [Env.str_env]
    rw [mem_keys_filter]
    constructor
    · exact fun hn => mem_keys_of_containsKey hn.2
    · intro hn
      simp only [List.mem_map] at hn
      obtain ⟨p, hp, rfl⟩ := hn
      exact ⟨mem_keys_of_containsKey (hstr p hp),
        containsKey_of_mem_keys (List.mem_map_of_mem Prod.fst hp)⟩
  · simp only [Env.ty_env]
    rw [mem_keys_filter]
    constructor
    · exact fun hn => mem_keys_of_containsKey hn.2
    · intro hn
      simp only [List.mem_map] at hn
      obtain ⟨p, hp, rfl⟩ := hn
      exact ⟨mem_keys_of_containsKey (hty p hp),
        containsKey_of_mem_keys (List.mem_map_of_mem Prod.fst hp)⟩
  · simp only [Env.val_env]
    rw [mem_keys_filter]
    constructor
    · exact fun hn => mem_keys_of_containsKey hn.2
    · intro hn
      simp only [List.mem_map] at hn
      obtain ⟨p, hp, rfl⟩ := hn
      exact ⟨mem_keys_of_containsKey (hval p hp),
        containsKey_of_mem_keys (List.mem_map_of_mem Prod.fst hp)⟩

/-- C2: for every bound symbol of the signature whose textual name is absent
from the candidate's type environment (and which witness construction
reaches, all earlier bound symbols resolving), `ck` fails with `Undefined`
at that name and produces no restricted environment. -/
theorem sig_match_undefined_ty (tyOk : TyOracle) (valOk : ValOracle)
    (st : State) (loc : Loc) (env : Env) (sg : Sig) (pre : List Sym)
    (b : Sym) (post : List Sym)
    (hsplit : sg.ty_names = pre ++ b :: post)
    (hpre : ∀ b' ∈ pre, (assocLookup env.ty_env b'.name).isSome = true)
    (habs : assocLookup env.ty_env b.name = none) :
    sig_match_ck tyOk valOk st loc env sg =
      Except.error (StaticsError.undefined Item.ty ⟨loc, b.name⟩) := by
  unfold sig_match_ck
  rw [hsplit, build_ty_rzn_error st loc env pre b post TyRealization.default
    hpre habs]

/-- C3: on every successful run, the returned realization maps exactly the
signature's bound symbols (its domain is the bound-name set), each to the
current type function — fetched from the state's type-name table — of the
candidate symbol found under the bound symbol's name; and the returned
realization is the very one under which the enrichment check was run. -/
theorem sig_match_realization (tyOk : TyOracle) (valOk : ValOracle)
    (st : State) (loc : Loc) (env : Env) (sg : Sig) (env' : Env)
    (rzn : TyRealization)
    (h : sig_match_ck tyOk valOk st loc env sg = Except.ok (env', rzn)) :
    (∀ s, (rzn.lookupSym s).isSome = true ↔ s ∈ sg.ty_names) ∧
    (∀ b ∈ sg.ty_names, ∃ cs, assocLookup env.ty_env b.name = some cs ∧
      rzn.lookupSym b = some (st.tys cs).ty_fcn) ∧
    enrich_ck tyOk valOk loc st.tys rzn env sg.env = Except.ok () := by
  obtain ⟨hb, he, _⟩ := sig_match_ck_ok_inv tyOk valOk st loc env sg env' rzn h
  refine ⟨fun s => ⟨fun hsome => ?_, fun hs => ?_⟩, ?_, he⟩
  · rcases build_ty_rzn_domain st loc env sg.ty_names TyRealization.default rzn
      hb s hsome with hmem | hacc
    · exact hmem
    · exact absurd hacc (by simp [TyRealization.default, TyRealization.lookupSym,
        assocLookup])
  · obtain ⟨cs, _, hlook⟩ :=
      build_ty_rzn_maps st loc env sg.ty_names TyRealization.default rzn hb s hs
    rw [hlook]
    rfl
  · exact build_ty_rzn_maps st loc env sg.ty_names TyRealization.default rzn hb

/-- C4: whenever the enrichment check invoked by `sig_match` fails, `ck`
returns exactly that enrichment error, unchanged — no aggregation, no
partial matching, no restricted environment. -/
theorem sig_match_propagates_enrich_error (tyOk : TyOracle) (valOk : ValOracle)
    (st : State) (loc : Loc) (env : Env) (sg : Sig) (rzn : TyRealization)
    (e : StaticsError)
    (hrzn : build_ty_rzn st loc env sg.ty_names TyRealization.default =
      Except.ok rzn)
    (henr : enrich_ck tyOk valOk loc st.tys rzn env sg.env = Except.error e) :
    sig_match_ck tyOk valOk st loc env sg = Except.error e := by
  unfold sig_match_ck
  simp only [hrzn, henr]

/-- C10: whenever `sig_match`'s `ck` succeeds, every binding of the returned
restricted environment is the candidate environment's original binding for
that name, unaltered: restriction filters entries by name membership only
(each kept entry is literally an entry of the candidate). -/
theorem sig_match_preserves_bindings (tyOk : TyOracle) (valOk : ValOracle)
    (st : State) (loc : Loc) (env : Env) (sg : Sig) (env' : Env)
    (rzn : TyRealization)
    (h : sig_match_ck tyOk valOk st loc env sg = Except.ok (env', rzn)) :
    (∀ p ∈ env'.str_env, p ∈ env.str_env) ∧
    (∀ p ∈ env'.ty_env, p ∈ env.ty_env) ∧
    (∀ p ∈ env'.val_env, p ∈ env.val_env) ∧
    (∀ n v, assocLookup env'.str_env n = some v →
      assocLookup env.str_env n = some v) ∧
    (∀ n v, assocLookup env'.ty_env n = some v →
      assocLookup env.ty_env n = some v) ∧
    (∀ n v, assocLookup env'.val_env n = some v →
      assocLookup env.val_env n = some v) := by
  obtain ⟨_, _, henv⟩ := sig_match_ck_ok_inv tyOk valOk st loc env sg env' rzn h
  subst henv
  refine ⟨fun p hp => List.mem_of_mem_filter hp,
    fun p hp => List.mem_of_mem_filter hp,
    fun p hp => List.mem_of_mem_filter hp, ?_, ?_, ?_⟩
  · intro n v hl
    replace hl : assocLookup
        (env.str_env.filter fun p => containsKey sg.env.str_env p.1) n =
        some v := hl
    by_cases hq : containsKey sg.env.str_env n = true
    · rw [assocLookup_filter_pos env.str_env _ n hq] at hl; exact hl
    · rw [assocLookup_filter_neg env.str_env _ n
        (Bool.eq_false_iff.mpr hq)] at hl
      exact Option.noConfusion hl
  · intro n v hl
    replace hl : assocLookup
        (env.ty_env.filter fun p => containsKey sg.env.ty_env p.1) n =
        some v := hl
    by_cases hq : containsKey sg.env.ty_env n = true
    · rw [assocLookup_filter_pos env.ty_env _ n hq] at hl; exact hl
    · rw [assocLookup_filter_neg env.ty_env _ n
        (Bool.eq_false_iff.mpr hq)] at hl
      exact Option.noConfusion hl
  · intro n v hl
    replace hl : assocLookup
        (env.val_env.filter fun p => containsKey sg.env.val_env p.1) n =
        some v := hl
    by_cases hq : containsKey sg.env.val_env n = true
    · rw [assocLookup_filter_pos env.val_env _ n hq] at hl; exact hl
    · rw [assocLookup_filter_neg env.val_env _ n
        (Bool.eq_false_iff.mpr hq)] at hl
      exact Option.noConfusion hl

/-! ### Concrete instances for the matching claims -/

/-- An oracle accepting every type-function comparison. -/
def okTyOracle : TyOracle := fun _ _ _ _ => Except.ok ()

/-- An oracle accepting every value comparison. -/
def okValOracle : ValOracle := fun _ _ _ => Except.ok ()

/-- An oracle failing every type-function comparison with `Todo`. -/
def errTyOracle : TyOracle := fun _ _ _ _ => Except.error (StaticsError.todo 7)

/-- A sample value entry. -/
def vInfoW : ValInfo := ⟨⟨0, Ty.var 0⟩, IdStatus.ordinary⟩

/-- The signature's bound symbol, introduced under name 20. -/
def symSigW : Sym := ⟨20, 0⟩

/-- The candidate's own symbol for name 20. -/
def symCandW : Sym := ⟨20, 1⟩

/-- The candidate symbol's current type function. -/
def tyFcnW : TyFcn := ⟨0, Ty.ctor [] symCandW⟩

/-- A state whose type-name table binds every symbol to `tyFcnW`. -/
def stW : State := ⟨fun _ => ⟨tyFcnW⟩⟩

/-- Candidate environment: type 20, values 30 and 31. -/
def candEnvW : Env := Env.mk [] [(20, symCandW)] [(30, vInfoW), (31, vInfoW)]

/-- Signature environment: type 20, value 30 (no value 31). -/
def sigEnvW : Env := Env.mk [] [(20, symSigW)] [(30, vInfoW)]

/-- The signature: bound symbol `symSigW` over `sigEnvW`. -/
def sgW : Sig := ⟨[symSigW], sigEnvW⟩

/-- The restricted environment produced by matching `candEnvW` against
`sgW`: value 31 is hidden. -/
def envResW : Env := Env.mk [] [(20, symCandW)] [(30, vInfoW)]

/-- The realization produced by matching `candEnvW` against `sgW`. -/
def rznW : TyRealization := [(symSigW, tyFcnW)]

/-- An empty candidate environment (no type named 20). -/
def candEnvW2 : Env := Env.mk [] [] []

theorem sig_match_restriction_names_witness :
    sig_match_ck okTyOracle okValOracle stW 0 candEnvW sgW =
      Except.ok (envResW, rznW) ∧
    ((∀ n, n ∈ envResW.str_env.map Prod.fst ↔
        n ∈ sgW.env.str_env.map Prod.fst) ∧
     (∀ n, n ∈ envResW.ty_env.map Prod.fst ↔
        n ∈ sgW.env.ty_env.map Prod.fst) ∧
     (∀ n, n ∈ envResW.val_env.map Prod.fst ↔
        n ∈ sgW.env.val_env.map Prod.fst)) :=
  ⟨rfl, sig_match_restriction_names okTyOracle okValOracle stW 0 candEnvW sgW
    envResW rznW rfl⟩

theorem sig_match_undefined_ty_witness :
    sgW.ty_names = [] ++ symSigW :: [] ∧
    assocLookup candEnvW2.ty_env symSigW.name = none ∧
    sig_match_ck okTyOracle okValOracle stW 0 candEnvW2 sgW =
      Except.error (StaticsError.undefined Item.ty ⟨0, symSigW.name⟩) :=
  ⟨rfl, rfl,
    sig_match_undefined_ty okTyOracle okValOracle stW 0 candEnvW2 sgW []
      symSigW [] rfl (fun b' hb' => absurd hb' (List.not_mem_nil b')) rfl⟩

theorem sig_match_realization_witness :
    sig_match_ck okTyOracle okValOracle stW 0 candEnvW sgW =
      Except.ok (envResW, rznW) ∧
    ((∀ s, (rznW.lookupSym s).isSome = true ↔ s ∈ sgW.ty_names) ∧
     (∀ b ∈ sgW.ty_names, ∃ cs, assocLookup candEnvW.ty_env b.name = some cs ∧
        rznW.lookupSym b = some (stW.tys cs).ty_fcn) ∧
     enrich_ck okTyOracle okValOracle 0 stW.tys rznW candEnvW sgW.env =
       Except.ok ()) :=
  ⟨rfl, sig_match_realization okTyOracle okValOracle stW 0 candEnvW sgW
    envResW rznW rfl⟩

theorem sig_match_propagates_enrich_error_witness :
    build_ty_rzn stW 0 candEnvW sgW.ty_names TyRealization.default =
      Except.ok rznW ∧
    enrich_ck errTyOracle okValOracle 0 stW.tys rznW candEnvW sgW.env =
      Except.error (StaticsError.todo 7) ∧
    sig_match_ck errTyOracle okValOracle stW 0 candEnvW sgW =
      Except.error (StaticsError.todo 7) :=
  ⟨rfl, rfl,
    sig_match_propagates_enrich_error errTyOracle okValOracle stW 0 candEnvW
      sgW rznW (StaticsError.todo 7) rfl rfl⟩

theorem sig_match_preserves_bindings_witness :
    sig_match_ck okTyOracle okValOracle stW 0 candEnvW sgW =
      Except.ok (envResW, rznW) ∧
    ((∀ p ∈ envResW.str_env, p ∈ candEnvW.str_env) ∧
     (∀ p ∈ envResW.ty_env, p ∈ candEnvW.ty_env) ∧
     (∀ p ∈ envResW.val_env, p ∈ candEnvW.val_env) ∧
     (∀ n v, assocLookup envResW.str_env n = some v →
        assocLookup candEnvW.str_env n = some v) ∧
     (∀ n v, assocLookup envResW.ty_env n = some v →
        assocLookup candEnvW.ty_env n = some v) ∧
     (∀ n v, assocLookup envResW.val_env n = some v →
        assocLookup candEnvW.val_env n = some v)) :=
  ⟨rfl, sig_match_preserves_bindings okTyOracle okValOracle stW 0 candEnvW sgW
    envResW rznW rfl⟩

end Millet
